import Mathlib

/-!
Verification of the `gitrelease` release-note synthesis pipeline
(`src/main.rs`): version parsing/bumping/formatting, tag selection,
commit classification, and section rendering.

Strings from the Rust side are modelled as `List Char` (Rust byte indices
of ASCII delimiters coincide with character positions, so character-level
slicing is faithful); the `String` wrapper is kept where the source API
takes or returns a `&str`/`String`.
-/

set_option autoImplicit false

namespace Gitrelease

/-! ## Character classes used by the two regexes (`VERSION_REGEX`, `GITHUB_URL_REGEX`) -/

/-- Rust regex `\w` word character (ASCII fragment: alphanumeric or underscore). -/
def isWordChar (c : Char) : Bool := c.isAlphanum || c = '_'

/-- Character class `[\w.]` of the host group in `GITHUB_URL_REGEX`. -/
def isHostChar (c : Char) : Bool := isWordChar c || c = '.'

/-- Character class (word char, slash or dash) of the path group in `GITHUB_URL_REGEX`. -/
def isPathChar (c : Char) : Bool := isWordChar c || c = '/' || c = '-'

/-! ## Decimal digits -/

/-- Numeric value of a big-endian list of decimal digit characters, as computed by
Rust `str::parse` on a digit string. -/
def natOfDigitChars (l : List Char) : Nat :=
  l.foldl (fun acc c => 10 * acc + (c.toNat - 48)) 0

/-- Fuel-driven digit extraction (empty on `0`); `fuel ≥ n` suffices. -/
def natToDigitCharsAux (fuel n : Nat) : List Char :=
  match fuel with
  | 0 => []
  | fuel + 1 =>
    if n = 0 then [] else natToDigitCharsAux fuel (n / 10) ++ [Char.ofNat (48 + n % 10)]

/-- Big-endian decimal digit characters of `n`, the rendering produced by Rust's
`Display` for a non-negative integer. -/
def natToDigitChars (n : Nat) : List Char :=
  if n = 0 then ['0'] else natToDigitCharsAux (n + 1) n

/-- Decimal rendering of an integer, as Rust `Display` for `i32`. -/
def intToDecimalChars (i : Int) : List Char :=
  if i < 0 then '-' :: natToDigitChars i.natAbs else natToDigitChars i.toNat

/-! ## `VERSION_REGEX` matching

`^(\d+)\.(\d+)\.(\d+)(-\w+)?(-SNAPSHOT)?$` has no matching ambiguity: each
`\d+` group must be a maximal digit run (the following character is `.`,
`-` or end of input, never a digit), so the match is computed by maximal
scans. -/

/-- The literal suffix `-SNAPSHOT` of `VERSION_REGEX`. -/
def snapshotChars : List Char := "-SNAPSHOT".data

/-- Whether a residual string matches the optional suffix part
`(-\w+)?(-SNAPSHOT)?$` of `VERSION_REGEX`. -/
def suffixOk (s : List Char) : Bool :=
  match s with
  | [] => true
  | c :: t =>
    decide (c = '-') &&
      ((!t.isEmpty && t.all isWordChar) ||
        (decide (9 < t.length) && decide (t.drop (t.length - 9) = snapshotChars) &&
          (t.take (t.length - 9)).all isWordChar))

/-- The three numeric capture groups of `VERSION_REGEX` on a full match,
`none` when the regex does not match. -/
def versionCaps (l : List Char) : Option (Nat × Nat × Nat) :=
  let d1 := l.takeWhile Char.isDigit
  if d1.isEmpty then none else
  match l.dropWhile Char.isDigit with
  | [] => none
  | c1 :: r2 =>
    if c1 = '.' then
      let d2 := r2.takeWhile Char.isDigit
      if d2.isEmpty then none else
      match r2.dropWhile Char.isDigit with
      | [] => none
      | c2 :: r4 =>
        if c2 = '.' then
          let d3 := r4.takeWhile Char.isDigit
          if d3.isEmpty then none else
          if suffixOk (r4.dropWhile Char.isDigit) then
            some (natOfDigitChars d1, natOfDigitChars d2, natOfDigitChars d3)
          else none
        else none
    else none

/-! ## `Version` (struct `Version` and its impl) -/

/-- The `Version` struct: `major`/`minor`/`patch` are `i32` in the source,
modelled as `Int` (every value of the struct satisfies the `i32` range). -/
structure Version where
  major : Int
  minor : Int
  patch : Int
  extra : String
  snapshot : Bool
deriving DecidableEq, Repr

/-- Largest `i32` value; `str::parse::<i32>` fails (and the source's `expect`
aborts) beyond it. -/
def I32MAX : Nat := 2147483647

/-- Outcome of `Version::parse`: a parsed version, a regex mismatch
(`None` in the source), or a process abort (the `expect` panics when a
captured numeric group does not fit in `i32`). -/
inductive ParseOutcome where
  | ok (v : Version)
  | noMatch
  | panic
deriving DecidableEq, Repr

/-- `Version::parse`. On a regex match, the three numeric groups are parsed as
`i32` (aborting on overflow) and `extra`/`snapshot` are set to `""`/`false`;
on no match the result is `None`. -/
def Version.parse (s : String) : ParseOutcome :=
  match versionCaps s.data with
  | some (a, b, c) =>
    if a ≤ I32MAX ∧ b ≤ I32MAX ∧ c ≤ I32MAX then
      .ok { major := a, minor := b, patch := c, extra := "", snapshot := false }
    else .panic
  | none => .noMatch

/-- `Version::bump`. -/
def Version.bump (v : Version) (bumpType : String) : Version :=
  if bumpType = "major" then
    { v with major := v.major + 1, minor := 0, patch := 0, snapshot := false }
  else if bumpType = "minor" then
    { v with minor := v.minor + 1, patch := 0, snapshot := false }
  else if bumpType = "patch" then
    { v with patch := v.patch + 1, snapshot := false }
  else if bumpType = "snapshot" then
    { v with patch := v.patch + 1, snapshot := true }
  else v

/-- `Version::to_string`: `format!("{}.{}.{}{}{}", major, minor, patch, extra, snapshot)`. -/
def Version.toString (v : Version) : String :=
  ⟨intToDecimalChars v.major ++ '.' :: intToDecimalChars v.minor ++ '.' :: intToDecimalChars v.patch
    ++ v.extra.data ++ (if v.snapshot then "-SNAPSHOT".data else [])⟩

/-! ## Commits and the classifier (`get_category_table`) -/

/-- One commit of the walked range: `title` is the first line of the commit
message (`message_bytes` → `lines().next()`), `id` its hex object id. -/
structure CommitRec where
  title : List Char
  id : String
deriving DecidableEq, Repr

/-- Rust `str::starts_with("Release")`. -/
def isReleaseTitle (t : List Char) : Bool := ("Release".data).isPrefixOf t

/-- Rust `str::contains(needle)`: substring containment. -/
def containsSub (needle : List Char) : List Char → Bool
  | [] => needle.isEmpty
  | c :: rest => needle.isPrefixOf (c :: rest) || containsSub needle rest

/-- Rust `str::find(c)`: position of the first occurrence of `c`. -/
def findCharIdx (c : Char) : List Char → Option Nat
  | [] => none
  | x :: xs => if x = c then some 0 else (findCharIdx c xs).map (· + 1)

/-- Rust `str::trim` (ASCII whitespace fragment). -/
def trimChars (l : List Char) : List Char :=
  ((l.dropWhile Char.isWhitespace).reverse.dropWhile Char.isWhitespace).reverse

/-- The `HashMap<String, Vec<String>>` of the classifier, as an association
list in insertion order (the source's `HashMap` iterates in arbitrary order;
no theorem below depends on the order for a non-empty table). -/
abbrev Table := List (List Char × List (List Char))

/-- The classifier's update: push onto the existing entry of `doc_type`, or
insert a fresh singleton entry. -/
def tableInsert : Table → List Char → List Char → Table
  | [], k, v => [(k, [v])]
  | (k', vs) :: rest, k, v =>
    if k' = k then (k', vs ++ [v]) :: rest else (k', vs) :: tableInsert rest k v

/-- `HashMap::get`. -/
def tableGet : Table → List Char → Option (List (List Char))
  | [], _ => none
  | (k', vs) :: rest, k => if k' = k then some vs else tableGet rest k

/-- Loop body of `get_category_table` for one commit title. -/
def classifyStep (submodule : List Char) (table : Table) (t : List Char) : Table :=
  if isReleaseTitle t then table
  else if submodule.isEmpty || containsSub ('(' :: submodule ++ [')']) t then
    match findCharIdx ':' t with
    | some index =>
      let descr := trimChars (t.drop (index + 1))
      let endIndex := match findCharIdx '(' t with
        | some i => i
        | none => index
      let docType := t.take endIndex
      tableInsert table docType descr
    | none => table
  else table

/-- `get_category_table`. -/
def get_category_table (commits : List CommitRec) (submodule : List Char) : Table :=
  commits.foldl (fun table c => classifyStep submodule table c.title) []

/-! ## `get_commits` -/

/-- Loop body of `get_commits` for one commit. -/
def commitLineStep (submodule repoUrl : List Char) (acc : List Char) (c : CommitRec) : List Char :=
  if isReleaseTitle c.title then acc
  else if submodule.isEmpty || containsSub ('(' :: submodule ++ [')']) c.title then
    acc ++ "* [".data ++ c.title ++ "](".data ++ repoUrl ++ "/commit/".data ++ c.id.data
      ++ ")\n".data
  else acc

/-- `get_commits`. -/
def get_commits (commits : List CommitRec) (submodule repoUrl : List Char) : List Char :=
  (commits.foldl (commitLineStep submodule repoUrl) "### Commits since last release:\n\n".data)
    ++ "\n\n".data

/-! ## `get_categorized_changes` -/

/-- The display-name / skip-flag lookup of `get_categorized_changes`. -/
def categoryDisplay (k : List Char) : List Char × Bool :=
  if k = "feat".data then ("Features".data, false)
  else if k = "fix".data then ("Bug Fixes".data, false)
  else if k = "docs".data then ("Documentation".data, false)
  else if k = "style".data then ("Styles".data, true)
  else if k = "refactor".data then ("Code Refactoring".data, true)
  else if k = "test".data then ("Test Refactoring".data, true)
  else if k = "chore".data then ("Miscellaneous Chores".data, true)
  else if k = "perf".data then ("Performance Improvements".data, false)
  else ("Other".data, true)

/-- Loop body of `get_categorized_changes` for one table entry. -/
def renderCategory (acc : List Char) (e : List Char × List (List Char)) : List Char :=
  let d := categoryDisplay e.1
  if d.2 then acc
  else acc ++ "#### ".data ++ d.1 ++ "\n\n".data
    ++ e.2.foldl (fun a t => a ++ "* ".data ++ t ++ "\n".data) []
    ++ "\n".data

/-- `get_categorized_changes`. -/
def get_categorized_changes (commits : List CommitRec) (submodule : List Char) : List Char :=
  ((get_category_table commits submodule).foldl renderCategory []) ++ "---\n".data

/-! ## Tag selection (`find_commit_for_last_release`)

The backend (`repo.tag_names` + `revparse_single`) is abstracted as the
enumerated list of matching tag names together with the commit each one
resolves to (`none` when `as_commit()` fails). -/

/-- The commit a tag resolves to: author timestamp seconds and object id. -/
structure CommitInfo where
  time : Int
  oid : String
deriving DecidableEq, Repr

/-- One enumerated tag name and its resolution. -/
structure TagEntry where
  name : String
  resolved : Option CommitInfo
deriving DecidableEq, Repr

/-- The `Tag` struct. -/
structure Tag where
  name : String
  time : Int
  oid : String
deriving DecidableEq, Repr

/-- Loop body of `find_commit_for_last_release`: replace the current best tag
exactly when the candidate's author time is strictly greater. -/
def tagStep (latest : Option Tag) (e : TagEntry) : Option Tag :=
  match e.resolved with
  | some c =>
    match latest with
    | some tag => if tag.time < c.time then some ⟨e.name, c.time, c.oid⟩ else some tag
    | none => some ⟨e.name, c.time, c.oid⟩
  | none => latest

/-- `find_commit_for_last_release`, over the enumerated tag entries. -/
def find_commit_for_last_release (entries : List TagEntry) : Option Tag :=
  entries.foldl tagStep none

/-! ## Header bump decision (`get_header`, lines 175–180) -/

/-- The bump type chosen in `get_header`: `"minor"` when the category table
has a `"feat"` key, else `"patch"`. -/
def headerBumpType (commits : List CommitRec) (submodule : List Char) : String :=
  match tableGet (get_category_table commits submodule) ("feat".data) with
  | some _ => "minor"
  | none => "patch"

/-! ## Remote URL normalization (`find_origin_remote_url`) -/

/-- Outcome of `find_origin_remote_url`: a URL string, or a process abort
(the `expect` on a failed `GITHUB_URL_REGEX` match). -/
inductive UrlOutcome where
  | ok (s : String)
  | panic
deriving DecidableEq, Repr

/-- The two capture groups of `GITHUB_URL_REGEX`
(`git@` then `[\w.]*` then `:` then zero or more path characters then
`.git`, anchored both sides) on a full match. The match is computed by
maximal scans: `:` is not a host character and `.` is not a path character,
so neither group can be shortened by backtracking. -/
def githubCaps (l : List Char) : Option (List Char × List Char) :=
  if ("git@".data).isPrefixOf l then
    let rest := l.drop 4
    let host := rest.takeWhile isHostChar
    match rest.dropWhile isHostChar with
    | [] => none
    | c1 :: r3 =>
      if c1 = ':' then
        let path := r3.takeWhile isPathChar
        if r3.dropWhile isPathChar = ".git".data then some (host, path) else none
      else none
  else none

/-- `find_origin_remote_url`, over the origin remote's URL string. -/
def find_origin_remote_url (url : String) : UrlOutcome :=
  if ("https://".data).isPrefixOf url.data then .ok url
  else
    match githubCaps url.data with
    | some (host, path) => .ok ⟨"https://".data ++ host ++ '/' :: path⟩
    | none => .panic

/-! ## Specification-side predicates

These follow the spec's wording and are only used inside theorem statements,
to be related to the functions above. -/

/-- A non-empty run of decimal digit characters (`\d+`). -/
def DigitSeg (d : List Char) : Prop := d ≠ [] ∧ ∀ c ∈ d, c.isDigit = true

/-- The optional suffix language of the version pattern: empty, `-word`, or
`-word-SNAPSHOT` (a lone `-SNAPSHOT` is the `-word` case with word `SNAPSHOT`). -/
def SuffixForm (s : List Char) : Prop :=
  s = [] ∨ (∃ w, s = '-' :: w ∧ w ≠ [] ∧ ∀ c ∈ w, isWordChar c = true) ∨
    (∃ w, s = '-' :: (w ++ snapshotChars) ∧ w ≠ [] ∧ ∀ c ∈ w, isWordChar c = true)

/-- `l` reads `digits.digits.digits` plus an optional suffix, the three
segments having numeric values `a`, `b`, `c`. -/
def VersionForm (l : List Char) (a b c : Nat) : Prop :=
  ∃ d1 d2 d3 suf, l = d1 ++ '.' :: (d2 ++ '.' :: (d3 ++ suf)) ∧
    DigitSeg d1 ∧ DigitSeg d2 ∧ DigitSeg d3 ∧ SuffixForm suf ∧
    a = natOfDigitChars d1 ∧ b = natOfDigitChars d2 ∧ c = natOfDigitChars d3

/-- `l` reads `git@host:path.git` with the URL regex's character classes on
`host` and `path`. -/
def SshUrlForm (l host path : List Char) : Prop :=
  l = "git@".data ++ host ++ ':' :: (path ++ ".git".data) ∧
    (∀ ch ∈ host, isHostChar ch = true) ∧ (∀ ch ∈ path, isPathChar ch = true)

/-! ## Helper lemmas: maximal scans -/

theorem takeWhile_dropWhile_append {α : Type _} {p : α → Bool} {a b : List α}
    (ha : ∀ c ∈ a, p c = true) (hb : ∀ c, b.head? = some c → p c = false) :
    (a ++ b).takeWhile p = a ∧ (a ++ b).dropWhile p = b := by
  induction a with
  | nil =>
    simp only [List.nil_append]
    cases b with
    | nil => simp
    | cons c cs =>
      have hc := hb c rfl
      simp [List.takeWhile_cons, List.dropWhile_cons, hc]
  | cons c cs ih =>
    have hc : p c = true := ha c (by simp)
    have ih' := ih (fun x hx => ha x (by simp [hx]))
    simp [List.takeWhile_cons, List.dropWhile_cons, hc, ih'.1, ih'.2]

/-! ## Helper lemmas: decimal digits -/

theorem char_digit_toNat {d : Nat} (h : d < 10) : (Char.ofNat (48 + d)).toNat = 48 + d := by
  interval_cases d <;> decide

theorem char_digit_isDigit {d : Nat} (h : d < 10) : (Char.ofNat (48 + d)).isDigit = true := by
  interval_cases d <;> decide

theorem natToDigitCharsAux_eq {fuel n : Nat} (h : n ≤ fuel) :
    natToDigitCharsAux fuel n = ((Nat.digits 10 n).map (fun d => Char.ofNat (48 + d))).reverse := by
  induction fuel generalizing n with
  | zero =>
    have : n = 0 := Nat.le_zero.mp h
    subst this
    simp [natToDigitCharsAux]
  | succ fuel ih =>
    by_cases hn : n = 0
    · subst hn; simp [natToDigitCharsAux]
    · have hdiv : n / 10 ≤ fuel := by
        have h1 : n / 10 < n := Nat.div_lt_self (Nat.pos_of_ne_zero hn) (by norm_num)
        omega
      rw [natToDigitCharsAux, if_neg hn, ih hdiv,
        Nat.digits_def' (by norm_num : (1:Nat) < 10) (Nat.pos_of_ne_zero hn)]
      simp

theorem natToDigitChars_eq (n : Nat) :
    natToDigitChars n =
      if n = 0 then ['0']
      else ((Nat.digits 10 n).map (fun d => Char.ofNat (48 + d))).reverse := by
  by_cases hn : n = 0
  · simp [natToDigitChars, hn]
  · simp [natToDigitChars, hn, natToDigitCharsAux_eq (Nat.le_succ n)]

theorem natToDigitChars_ne_nil (n : Nat) : natToDigitChars n ≠ [] := by
  rw [natToDigitChars_eq]
  by_cases hn : n = 0
  · simp [hn]
  · simp [hn, Nat.digits_ne_nil_iff_ne_zero.mpr hn]

theorem natToDigitChars_all_digit (n : Nat) :
    ∀ c ∈ natToDigitChars n, c.isDigit = true := by
  rw [natToDigitChars_eq]
  by_cases hn : n = 0
  · simp [hn]
  · intro c hc
    simp only [if_neg hn, List.mem_reverse, List.mem_map] at hc
    obtain ⟨d, hd, rfl⟩ := hc
    exact char_digit_isDigit (Nat.digits_lt_base (by norm_num) hd)

theorem natOfDigitChars_reverse_map {ds : List Nat} (h : ∀ d ∈ ds, d < 10) :
    natOfDigitChars ((ds.map (fun d => Char.ofNat (48 + d))).reverse) = Nat.ofDigits 10 ds := by
  unfold natOfDigitChars
  rw [List.foldl_reverse, List.foldr_map]
  induction ds with
  | nil => simp [Nat.ofDigits]
  | cons d rest ih =>
    have hd : d < 10 := h d (by simp)
    have ih' := ih (fun x hx => h x (by simp [hx]))
    rw [List.foldr_cons, ih', Nat.ofDigits_cons, char_digit_toNat hd]
    omega

theorem natOf_natTo (n : Nat) : natOfDigitChars (natToDigitChars n) = n := by
  rw [natToDigitChars_eq]
  by_cases hn : n = 0
  · simp [hn]; decide
  · rw [if_neg hn,
      natOfDigitChars_reverse_map (fun d hd => Nat.digits_lt_base (by norm_num) hd),
      Nat.ofDigits_digits]

/-! ## `VERSION_REGEX`: match characterization -/

theorem suffixOk_iff {s : List Char} : suffixOk s = true ↔ SuffixForm s := by
  constructor
  · intro h
    cases s with
    | nil => exact Or.inl rfl
    | cons c t =>
      simp only [suffixOk, Bool.and_eq_true, Bool.or_eq_true, decide_eq_true_eq,
        Bool.not_eq_true', List.all_eq_true] at h
      obtain ⟨rfl, h2⟩ := h
      rcases h2 with ⟨hne, hall⟩ | ⟨⟨hlen, hdrop⟩, htake⟩
      · exact Or.inr (Or.inl ⟨t, rfl, fun hnil => by rw [hnil] at hne; simp at hne, hall⟩)
      · refine Or.inr (Or.inr ⟨t.take (t.length - 9), ?_, ?_, htake⟩)
        · conv_lhs => rw [← List.take_append_drop (t.length - 9) t]
          rw [hdrop]
        · have hl : (t.take (t.length - 9)).length = t.length - 9 := by
            rw [List.length_take]; omega
          intro hnil
          rw [hnil] at hl
          simp at hl
          omega
  · intro h
    rcases h with rfl | ⟨w, rfl, hw, hall⟩ | ⟨w, rfl, hw, hall⟩
    · rfl
    · simp only [suffixOk, Bool.and_eq_true, Bool.or_eq_true, decide_eq_true_eq,
        Bool.not_eq_true', List.all_eq_true]
      refine ⟨by trivial, Or.inl ⟨?_, hall⟩⟩
      cases w with
      | nil => exact absurd rfl hw
      | cons _ _ => rfl
    · have h9 : snapshotChars.length = 9 := rfl
      have hwl : 0 < w.length := List.length_pos.mpr hw
      have hlen : (w ++ snapshotChars).length = w.length + 9 := by
        rw [List.length_append, h9]
      have hsub : (w ++ snapshotChars).length - 9 = w.length := by omega
      simp only [suffixOk, Bool.and_eq_true, Bool.or_eq_true, decide_eq_true_eq,
        Bool.not_eq_true', List.all_eq_true]
      refine ⟨by trivial, Or.inr ⟨⟨by rw [hlen]; omega, ?_⟩, ?_⟩⟩
      · rw [hsub, List.drop_left]
      · rw [hsub, List.take_left]
        exact hall

theorem versionCaps_of_form {l : List Char} {a b c : Nat} (h : VersionForm l a b c) :
    versionCaps l = some (a, b, c) := by
  obtain ⟨d1, d2, d3, suf, rfl, ⟨h1n, h1d⟩, ⟨h2n, h2d⟩, ⟨h3n, h3d⟩, hsuf, rfl, rfl, rfl⟩ := h
  have hsufhead : ∀ ch, suf.head? = some ch → ch.isDigit = false := by
    rcases hsuf with rfl | ⟨w, rfl, _, _⟩ | ⟨w, rfl, _, _⟩
    · intro ch hch; cases hch
    · intro ch hch; simp at hch; rw [← hch]; decide
    · intro ch hch; simp at hch; rw [← hch]; decide
  have t3 := takeWhile_dropWhile_append (p := Char.isDigit) h3d hsufhead
  have t2 := takeWhile_dropWhile_append (p := Char.isDigit) (b := '.' :: (d3 ++ suf)) h2d
    (fun ch hch => by simp at hch; rw [← hch]; decide)
  have t1 := takeWhile_dropWhile_append (p := Char.isDigit)
    (b := '.' :: (d2 ++ '.' :: (d3 ++ suf))) h1d
    (fun ch hch => by simp at hch; rw [← hch]; decide)
  have i1 : d1.isEmpty = false := by
    cases d1 with
    | nil => exact absurd rfl h1n
    | cons _ _ => rfl
  have i2 : d2.isEmpty = false := by
    cases d2 with
    | nil => exact absurd rfl h2n
    | cons _ _ => rfl
  have i3 : d3.isEmpty = false := by
    cases d3 with
    | nil => exact absurd rfl h3n
    | cons _ _ => rfl
  simp only [versionCaps, t1.1, t1.2, t2.1, t2.2, t3.1, t3.2, i1, i2, i3,
    suffixOk_iff.mpr hsuf, Bool.false_eq_true, if_false, if_true]

theorem form_of_versionCaps {l : List Char} {a b c : Nat}
    (h : versionCaps l = some (a, b, c)) : VersionForm l a b c := by
  simp only [versionCaps] at h
  split at h
  · exact absurd h (by simp)
  next i1 =>
  split at h
  · exact absurd h (by simp)
  next c1 r2 hr1 =>
  split at h
  case isFalse => exact absurd h (by simp)
  next hc1 =>
  split at h
  · exact absurd h (by simp)
  next i2 =>
  split at h
  · exact absurd h (by simp)
  next c2 r4 hr2 =>
  split at h
  case isFalse => exact absurd h (by simp)
  next hc2 =>
  split at h
  · exact absurd h (by simp)
  next i3 =>
  split at h
  case isFalse => exact absurd h (by simp)
  next hsufok =>
  have h' : natOfDigitChars (l.takeWhile Char.isDigit) = a ∧
      natOfDigitChars (r2.takeWhile Char.isDigit) = b ∧
      natOfDigitChars (r4.takeWhile Char.isDigit) = c := by simpa using h
  subst hc1
  subst hc2
  have hl1 : l = l.takeWhile Char.isDigit ++ '.' :: r2 := by
    conv_lhs => rw [← List.takeWhile_append_dropWhile Char.isDigit l]
    rw [hr1]
  have hl2 : r2 = r2.takeWhile Char.isDigit ++ '.' :: r4 := by
    conv_lhs => rw [← List.takeWhile_append_dropWhile Char.isDigit r2]
    rw [hr2]
  have hl3 : r4 = r4.takeWhile Char.isDigit ++ r4.dropWhile Char.isDigit :=
    (List.takeWhile_append_dropWhile Char.isDigit r4).symm
  refine ⟨l.takeWhile Char.isDigit, r2.takeWhile Char.isDigit, r4.takeWhile Char.isDigit,
    r4.dropWhile Char.isDigit, ?_,
    ⟨?_, fun x hx => List.mem_takeWhile_imp hx⟩,
    ⟨?_, fun x hx => List.mem_takeWhile_imp hx⟩,
    ⟨?_, fun x hx => List.mem_takeWhile_imp hx⟩,
    suffixOk_iff.mp hsufok, h'.1.symm, h'.2.1.symm, h'.2.2.symm⟩
  · rw [← hl3, ← hl2, ← hl1]
  · intro hnil; exact i1 (by rw [hnil]; rfl)
  · intro hnil; exact i2 (by rw [hnil]; rfl)
  · intro hnil; exact i3 (by rw [hnil]; rfl)

/-- C2 (amended): `Version::parse` returns a version — with empty `extra` and
`snapshot` false — for every input of the form digits `.` digits `.` digits
with optional `-word` / `-SNAPSHOT` suffixes whose numeric segments each fit
in `i32` (at most 2147483647); for every input not of that form it fails with
no result. (As originally stated the claim is false: a matching input with a
segment beyond `i32` makes the `expect` in `parse` abort the process instead
of returning a version; see the counterexample.) -/
theorem version_parse_spec (s : String) :
    (∀ a b c : Nat, VersionForm s.data a b c →
      a ≤ I32MAX → b ≤ I32MAX → c ≤ I32MAX →
      Version.parse s =
        .ok { major := a, minor := b, patch := c, extra := "", snapshot := false }) ∧
    ((¬ ∃ a b c : Nat, VersionForm s.data a b c) → Version.parse s = .noMatch) := by
  constructor
  · intro a b c hform ha hb hc
    simp [Version.parse, versionCaps_of_form hform, ha, hb, hc]
  · intro hne
    cases hcap : versionCaps s.data with
    | none => simp [Version.parse, hcap]
    | some x =>
      obtain ⟨a, b, c⟩ := x
      exact absurd ⟨a, b, c, form_of_versionCaps hcap⟩ hne

/-- C2 counterexample: `"2147483648.0.0"` is of the claimed input form
(digits `.` digits `.` digits), yet `Version::parse` aborts on it (the
`expect` on `parse::<i32>` panics, the major segment exceeding `i32`)
instead of returning a version. -/
theorem version_parse_overflow_panics :
    VersionForm ("2147483648.0.0".data) 2147483648 0 0 ∧
    Version.parse "2147483648.0.0" = .panic := by
  constructor
  · exact ⟨"2147483648".data, "0".data, "0".data, [], by decide, ⟨by decide, by decide⟩,
      ⟨by decide, by decide⟩, ⟨by decide, by decide⟩, Or.inl rfl,
      by decide, by decide, by decide⟩
  · decide

/-- C2 witness: the amended theorem applied to `"1.2.3-alpha-SNAPSHOT"`. -/
theorem version_parse_spec_witness :
    Version.parse "1.2.3-alpha-SNAPSHOT" =
      .ok { major := 1, minor := 2, patch := 3, extra := "", snapshot := false } :=
  (version_parse_spec "1.2.3-alpha-SNAPSHOT").1 1 2 3
    ⟨"1".data, "2".data, "3".data, "-alpha-SNAPSHOT".data, by decide, ⟨by decide, by decide⟩,
      ⟨by decide, by decide⟩, ⟨by decide, by decide⟩,
      Or.inr (Or.inr ⟨"alpha".data, by decide, by decide, by decide⟩),
      by decide, by decide, by decide⟩
    (by decide) (by decide) (by decide)

/-- C3: round-trip — for every version with empty `extra`, `snapshot` false
and non-negative `major`/`minor`/`patch` (the `≤ 2147483647` bounds encode
the `i32` type of the struct's fields), parsing the formatted string returns
exactly that version. -/
theorem version_roundtrip (v : Version) (hx : v.extra = "") (hs : v.snapshot = false)
    (h1 : 0 ≤ v.major) (h2 : v.major ≤ (I32MAX : Int))
    (h3 : 0 ≤ v.minor) (h4 : v.minor ≤ (I32MAX : Int))
    (h5 : 0 ≤ v.patch) (h6 : v.patch ≤ (I32MAX : Int)) :
    Version.parse v.toString = .ok v := by
  obtain ⟨ma, mi, pa, ex, sn⟩ := v
  simp only at hx hs h1 h2 h3 h4 h5 h6
  subst hx
  subst hs
  have hform : VersionForm (Version.toString ⟨ma, mi, pa, "", false⟩).data
      ma.toNat mi.toNat pa.toNat := by
    refine ⟨natToDigitChars ma.toNat, natToDigitChars mi.toNat, natToDigitChars pa.toNat, [],
      ?_,
      ⟨natToDigitChars_ne_nil _, natToDigitChars_all_digit _⟩,
      ⟨natToDigitChars_ne_nil _, natToDigitChars_all_digit _⟩,
      ⟨natToDigitChars_ne_nil _, natToDigitChars_all_digit _⟩,
      Or.inl rfl, (natOf_natTo _).symm, (natOf_natTo _).symm, (natOf_natTo _).symm⟩
    simp only [Version.toString, intToDecimalChars, if_neg (not_lt.mpr h1),
      if_neg (not_lt.mpr h3), if_neg (not_lt.mpr h5)]
    simp
  have b1 : ma.toNat ≤ I32MAX := Int.toNat_le.mpr h2
  have b2 : mi.toNat ≤ I32MAX := Int.toNat_le.mpr h4
  have b3 : pa.toNat ≤ I32MAX := Int.toNat_le.mpr h6
  have := versionCaps_of_form hform
  simp only [Version.parse, this, b1, b2, b3, and_self, if_true, ParseOutcome.ok.injEq]
  rw [Int.toNat_of_nonneg h1, Int.toNat_of_nonneg h3, Int.toNat_of_nonneg h5]

/-- C3 witness: the round-trip theorem applied to the version `12.0.5`. -/
theorem version_roundtrip_witness :
    Version.parse (Version.toString
        { major := 12, minor := 0, patch := 5, extra := "", snapshot := false }) =
      .ok { major := 12, minor := 0, patch := 5, extra := "", snapshot := false } :=
  version_roundtrip _ rfl rfl (by decide) (by decide) (by decide) (by decide)
    (by decide) (by decide)

/-! ## `str::find` characterization -/

theorem findCharIdx_of_mem {c : Char} {t : List Char} (h : c ∈ t) :
    ∃ i, findCharIdx c t = some i ∧ t.take i = t.takeWhile (fun x => x ≠ c) ∧
      t.drop (i + 1) = (t.dropWhile (fun x => x ≠ c)).tail := by
  induction t with
  | nil => cases h
  | cons x xs ih =>
    by_cases hx : x = c
    · subst hx
      refine ⟨0, by simp [findCharIdx], ?_, ?_⟩
      · simp [List.takeWhile_cons]
      · simp [List.dropWhile_cons]
    · have hmem : c ∈ xs := by
        rcases List.mem_cons.mp h with h' | h'
        · exact absurd h'.symm hx
        · exact h'
      obtain ⟨i, hfind, htake, hdrop⟩ := ih hmem
      refine ⟨i + 1, ?_, ?_, ?_⟩
      · simp [findCharIdx, hx, hfind]
      · simp [List.take_succ_cons, List.takeWhile_cons, hx, htake]
      · simp [List.drop_succ_cons, List.dropWhile_cons, hx, hdrop]

theorem findCharIdx_of_not_mem {c : Char} {t : List Char} (h : c ∉ t) :
    findCharIdx c t = none := by
  induction t with
  | nil => rfl
  | cons x xs ih =>
    have hx : ¬ x = c := fun he => h (he ▸ List.mem_cons_self x xs)
    simp [findCharIdx, hx, ih (fun hm => h (List.mem_cons_of_mem _ hm))]

/-- C1 counterexample: the title `fix: correct (minor) bug` contains `:`, and its
first `(` occurs after the first `:`; the claim says its category key is the
text before the first `:` — that is, `fix` — but the classifier derives the key
from the first `(` anywhere in the title, producing key `fix: correct ` and no
`fix` entry at all. -/
theorem category_key_paren_after_colon :
    get_category_table [⟨"fix: correct (minor) bug".data, "c1"⟩] [] =
      [("fix: correct ".data, ["correct (minor) bug".data])] ∧
    tableGet (get_category_table [⟨"fix: correct (minor) bug".data, "c1"⟩] [])
      ("fix".data) = none := by
  constructor
  · decide
  · decide

/-- C1 (amended): for every commit title containing `:` (not `Release`-prefixed,
no submodule filter), the category key is the prefix of the title before the
first `(` whenever the title contains `(` anywhere — whether before or after
the first `:` — and otherwise the prefix before the first `:`; the description
is the substring after the first `:`, trimmed of surrounding whitespace. -/
theorem category_key_spec (t : List Char) (oid : String)
    (hc : ':' ∈ t) (hr : isReleaseTitle t = false) :
    get_category_table [⟨t, oid⟩] [] =
      [((if '(' ∈ t then t.takeWhile (fun x => x ≠ '(') else t.takeWhile (fun x => x ≠ ':')),
        [trimChars ((t.dropWhile (fun x => x ≠ ':')).tail)])] := by
  obtain ⟨i, hfind, htake, hdrop⟩ := findCharIdx_of_mem hc
  simp only [get_category_table, List.foldl_cons, List.foldl_nil, classifyStep, hr,
    Bool.false_eq_true, if_false, List.isEmpty_nil, Bool.true_or, if_true, hfind]
  by_cases hp : '(' ∈ t
  · obtain ⟨j, hfindp, htakep, _⟩ := findCharIdx_of_mem hp
    rw [hfindp, if_pos hp, ← htakep, ← hdrop]
    rfl
  · rw [findCharIdx_of_not_mem hp, if_neg hp, ← htake, ← hdrop]
    rfl

/-- C1 witness: the amended theorem applied to `feat(x): add thing`, giving
key `feat` and description `add thing`. -/
theorem category_key_spec_witness :
    get_category_table [⟨"feat(x): add thing".data, "c2"⟩] [] =
      [("feat".data, ["add thing".data])] := by
  rw [category_key_spec ("feat(x): add thing".data) "c2" (by decide) (by decide)]
  decide

/-! ## Tag selection characterization -/

theorem tagStep_of_none {latest : Option Tag} {e : TagEntry} (he : e.resolved = none) :
    tagStep latest e = latest := by
  unfold tagStep
  rw [he]

theorem tagStep_cases (latest : Option Tag) (e : TagEntry) :
    (e.resolved = none ∧ tagStep latest e = latest) ∨
    (∃ c, e.resolved = some c ∧
      (((∀ t0, latest = some t0 → t0.time < c.time) ∧
          tagStep latest e = some ⟨e.name, c.time, c.oid⟩) ∨
        (∃ t0, latest = some t0 ∧ c.time ≤ t0.time ∧ tagStep latest e = some t0))) := by
  cases he : e.resolved with
  | none => exact Or.inl ⟨rfl, tagStep_of_none he⟩
  | some c =>
    refine Or.inr ⟨c, rfl, ?_⟩
    cases latest with
    | none =>
      refine Or.inl ⟨(fun t0 h0 => by cases h0), ?_⟩
      simp only [tagStep, he]
    | some tag0 =>
      by_cases hlt : tag0.time < c.time
      · refine Or.inl ⟨(fun t0 h0 => by rw [← Option.some.inj h0]; exact hlt), ?_⟩
        simp only [tagStep, he]
        rw [if_pos hlt]
      · refine Or.inr ⟨tag0, rfl, not_lt.mp hlt, ?_⟩
        simp only [tagStep, he]
        rw [if_neg hlt]

theorem foldl_tagStep_none_iff :
    ∀ (entries : List TagEntry) (latest : Option Tag),
      entries.foldl tagStep latest = none ↔
        latest = none ∧ ∀ e ∈ entries, e.resolved = none := by
  intro entries
  induction entries with
  | nil => intro latest; simp
  | cons e rest ih =>
    intro latest
    rw [List.foldl_cons, ih]
    constructor
    · rintro ⟨hstep, hrest⟩
      rcases tagStep_cases latest e with ⟨hnone, heq⟩ | ⟨c, hres, hrep⟩
      · refine ⟨heq ▸ hstep, ?_⟩
        intro x hx
        rcases List.mem_cons.mp hx with rfl | hx'
        · exact hnone
        · exact hrest x hx'
      · exfalso
        rcases hrep with ⟨_, heq⟩ | ⟨t0, _, _, heq⟩ <;> rw [heq] at hstep <;> cases hstep
    · rintro ⟨rfl, hall⟩
      have he : e.resolved = none := hall e (List.mem_cons_self e rest)
      exact ⟨tagStep_of_none he, fun x hx => hall x (List.mem_cons_of_mem _ hx)⟩

theorem foldl_tagStep_spec :
    ∀ (entries : List TagEntry) (latest : Option Tag) (t : Tag),
      entries.foldl tagStep latest = some t →
      (latest = some t ∧ ∀ (k : Nat) (e' : TagEntry) (c' : CommitInfo), entries[k]? = some e' → e'.resolved = some c' →
          c'.time ≤ t.time) ∨
      (∃ (j : Nat) (e : TagEntry) (c : CommitInfo), entries[j]? = some e ∧ e.resolved = some c ∧
        t = ⟨e.name, c.time, c.oid⟩ ∧
        (∀ (k : Nat) (e' : TagEntry) (c' : CommitInfo), entries[k]? = some e' → e'.resolved = some c' → c'.time ≤ c.time) ∧
        (∀ (k : Nat) (e' : TagEntry) (c' : CommitInfo), k < j → entries[k]? = some e' → e'.resolved = some c' →
          c'.time < c.time) ∧
        (∀ t0, latest = some t0 → t0.time < c.time)) := by
  intro entries
  induction entries with
  | nil =>
    intro latest t h
    simp only [List.foldl_nil] at h
    refine Or.inl ⟨h, ?_⟩
    intro k e' c' hk
    rw [List.getElem?_nil] at hk
    cases hk
  | cons e rest ih =>
    intro latest t h
    rw [List.foldl_cons] at h
    -- the time of whatever tagStep produced bounds every later comparison
    rcases tagStep_cases latest e with ⟨hnone, heq⟩ | ⟨c0, hres0, hrep⟩
    · -- the head entry does not resolve: it contributes nothing
      rw [heq] at h
      rcases ih latest t h with ⟨hacc, hbound⟩ | ⟨j, e1, c1, hj, hres1, ht, hub, hstrict, hlat⟩
      · refine Or.inl ⟨hacc, ?_⟩
        intro k e' c' hk hr'
        cases k with
        | zero =>
          rw [List.getElem?_cons_zero] at hk
          rw [← Option.some.inj hk] at hr'
          rw [hnone] at hr'
          cases hr'
        | succ k =>
          rw [List.getElem?_cons_succ] at hk
          exact hbound k e' c' hk hr'
      · refine Or.inr ⟨j + 1, e1, c1, by rw [List.getElem?_cons_succ]; exact hj, hres1, ht,
          ?_, ?_, hlat⟩
        · intro k e' c' hk hr'
          cases k with
          | zero =>
            rw [List.getElem?_cons_zero] at hk
            rw [← Option.some.inj hk] at hr'
            rw [hnone] at hr'
            cases hr'
          | succ k =>
            rw [List.getElem?_cons_succ] at hk
            exact hub k e' c' hk hr'
        · intro k e' c' hklt hk hr'
          cases k with
          | zero =>
            rw [List.getElem?_cons_zero] at hk
            rw [← Option.some.inj hk] at hr'
            rw [hnone] at hr'
            cases hr'
          | succ k =>
            rw [List.getElem?_cons_succ] at hk
            exact hstrict k e' c' (by omega) hk hr'
    · -- the head entry resolves to `c0`
      have hstep : ∃ x : Tag, tagStep latest e = some x ∧ c0.time ≤ x.time ∧
          (∀ t0, latest = some t0 → t0.time ≤ x.time) := by
        rcases hrep with ⟨hgt, heq⟩ | ⟨t0, hl0, hle, heq⟩
        · exact ⟨⟨e.name, c0.time, c0.oid⟩, heq, le_refl _,
            fun t0 h0 => le_of_lt (hgt t0 h0)⟩
        · refine ⟨t0, heq, hle, ?_⟩
          intro t1 h1
          rw [hl0] at h1
          rw [← Option.some.inj h1]
      obtain ⟨x, hxeq, hc0x, hlatx⟩ := hstep
      rw [hxeq] at h
      rcases ih (some x) t h with ⟨hacc, hbound⟩ | ⟨j, e1, c1, hj, hres1, ht, hub, hstrict, hlat⟩
      · -- the accumulator `x` survived the rest of the walk: `t = x`
        have hx : x = t := Option.some.inj hacc
        subst hx
        rcases hrep with ⟨hgt, heq⟩ | ⟨t0, hl0, hle, heq⟩
        · -- `x` was built from the head entry: the head is the argmax, at index 0
          have hx0 : x = ⟨e.name, c0.time, c0.oid⟩ := Option.some.inj (hxeq.symm.trans heq)
          refine Or.inr ⟨0, e, c0, List.getElem?_cons_zero, hres0, hx0, ?_, ?_, ?_⟩
          · intro k e' c' hk hr'
            cases k with
            | zero =>
              rw [List.getElem?_cons_zero] at hk
              rw [← Option.some.inj hk] at hr'
              rw [hres0] at hr'
              rw [← Option.some.inj hr']
            | succ k =>
              rw [List.getElem?_cons_succ] at hk
              have := hbound k e' c' hk hr'
              rw [hx0] at this
              exact this
          · intro k e' c' hklt _ _
            omega
          · intro t0 h0
            exact hgt t0 h0
        · -- `x` is the incoming accumulator `t0`, which already dominated the head
          have ht0 : t0 = x := Option.some.inj (heq.symm.trans hxeq)
          refine Or.inl ⟨by rw [hl0, ht0], ?_⟩
          intro k e' c' hk hr'
          cases k with
          | zero =>
            rw [List.getElem?_cons_zero] at hk
            rw [← Option.some.inj hk] at hr'
            rw [hres0] at hr'
            rw [← Option.some.inj hr']
            exact le_trans hle (le_of_eq (congrArg Tag.time ht0))
          | succ k =>
            rw [List.getElem?_cons_succ] at hk
            exact hbound k e' c' hk hr'
      · -- the maximum lies in the rest of the list, at index `j`
        have hc0c1 : c0.time < c1.time := lt_of_le_of_lt hc0x (hlat x rfl)
        refine Or.inr ⟨j + 1, e1, c1, by rw [List.getElem?_cons_succ]; exact hj, hres1, ht,
          ?_, ?_, ?_⟩
        · intro k e' c' hk hr'
          cases k with
          | zero =>
            rw [List.getElem?_cons_zero] at hk
            rw [← Option.some.inj hk] at hr'
            rw [hres0] at hr'
            rw [← Option.some.inj hr']
            exact le_of_lt hc0c1
          | succ k =>
            rw [List.getElem?_cons_succ] at hk
            exact hub k e' c' hk hr'
        · intro k e' c' hklt hk hr'
          cases k with
          | zero =>
            rw [List.getElem?_cons_zero] at hk
            rw [← Option.some.inj hk] at hr'
            rw [hres0] at hr'
            rw [← Option.some.inj hr']
            exact hc0c1
          | succ k =>
            rw [List.getElem?_cons_succ] at hk
            exact hstrict k e' c' (by omega) hk hr'
        · intro t1 h1
          exact lt_of_le_of_lt (hlatx t1 h1) (hlat x rfl)

/-- C4: over the enumerated tags matching the pattern, the function returns
`none` exactly when no tag resolves to a commit; and any returned tag is built
from an enumerated entry that resolves to a commit whose author timestamp is
maximal, every strictly earlier entry resolving only to strictly older
commits (ties retain the earliest enumerated candidate). -/
theorem find_last_release_spec (entries : List TagEntry) :
    (find_commit_for_last_release entries = none ↔ ∀ e ∈ entries, e.resolved = none) ∧
    (∀ t, find_commit_for_last_release entries = some t →
      ∃ (j : Nat) (e : TagEntry) (c : CommitInfo), entries[j]? = some e ∧ e.resolved = some c ∧
        t = ⟨e.name, c.time, c.oid⟩ ∧
        (∀ (k : Nat) (e' : TagEntry) (c' : CommitInfo), entries[k]? = some e' → e'.resolved = some c' → c'.time ≤ c.time) ∧
        (∀ (k : Nat) (e' : TagEntry) (c' : CommitInfo), k < j → entries[k]? = some e' → e'.resolved = some c' →
          c'.time < c.time)) := by
  constructor
  · unfold find_commit_for_last_release
    rw [foldl_tagStep_none_iff entries none]
    simp
  · intro t h
    rcases foldl_tagStep_spec entries none t h with ⟨habs, _⟩ | ⟨j, e, c, hj, hres, ht, hub, hlt, _⟩
    · cases habs
    · exact ⟨j, e, c, hj, hres, ht, hub, hlt⟩

/-- C4 witness: the characterization applied to a concrete enumeration with a
timestamp tie (`v2` and `v3` both at time 9) and an unresolvable tag; the
first-enumerated maximum `v2` is returned. -/
theorem find_last_release_spec_witness :
    ∃ (j : Nat) (e : TagEntry) (c : CommitInfo),
      ([⟨"v1", some ⟨5, "a"⟩⟩, ⟨"v2", some ⟨9, "b"⟩⟩, ⟨"v3", some ⟨9, "c"⟩⟩,
        ⟨"v4", none⟩] : List TagEntry)[j]? = some e ∧
      e.resolved = some c ∧ (⟨"v2", 9, "b"⟩ : Tag) = ⟨e.name, c.time, c.oid⟩ ∧
      (∀ (k : Nat) (e' : TagEntry) (c' : CommitInfo),
        ([⟨"v1", some ⟨5, "a"⟩⟩, ⟨"v2", some ⟨9, "b"⟩⟩, ⟨"v3", some ⟨9, "c"⟩⟩,
          ⟨"v4", none⟩] : List TagEntry)[k]? = some e' →
        e'.resolved = some c' → c'.time ≤ c.time) ∧
      (∀ (k : Nat) (e' : TagEntry) (c' : CommitInfo), k < j →
        ([⟨"v1", some ⟨5, "a"⟩⟩, ⟨"v2", some ⟨9, "b"⟩⟩, ⟨"v3", some ⟨9, "c"⟩⟩,
          ⟨"v4", none⟩] : List TagEntry)[k]? = some e' →
        e'.resolved = some c' → c'.time < c.time) :=
  (find_last_release_spec _).2 ⟨"v2", 9, "b"⟩ (by decide)

/-! ## Category-table invariant -/

theorem tableInsert_values_nonempty {tb : Table} {k v : List Char}
    (h : ∀ p ∈ tb, p.2 ≠ []) : ∀ p ∈ tableInsert tb k v, p.2 ≠ [] := by
  induction tb with
  | nil =>
    intro p hp
    rw [tableInsert] at hp
    rw [List.mem_singleton.mp hp]
    simp
  | cons q rest ih =>
    obtain ⟨k', vs⟩ := q
    intro p hp
    rw [tableInsert] at hp
    by_cases hk : k' = k
    · rw [if_pos hk] at hp
      rcases List.mem_cons.mp hp with rfl | hp'
      · simp
      · exact h p (List.mem_cons_of_mem _ hp')
    · rw [if_neg hk] at hp
      rcases List.mem_cons.mp hp with rfl | hp'
      · exact h (k', vs) (List.mem_cons_self _ _)
      · exact ih (fun q hq => h q (List.mem_cons_of_mem _ hq)) p hp'

theorem classifyStep_values_nonempty {sub : List Char} {tb : Table} {t : List Char}
    (h : ∀ p ∈ tb, p.2 ≠ []) : ∀ p ∈ classifyStep sub tb t, p.2 ≠ [] := by
  unfold classifyStep
  by_cases h1 : isReleaseTitle t = true
  · rw [if_pos h1]; exact h
  · rw [if_neg h1]
    by_cases h2 : (sub.isEmpty || containsSub ('(' :: sub ++ [')']) t) = true
    · rw [if_pos h2]
      cases hidx : findCharIdx ':' t with
      | some i => exact tableInsert_values_nonempty h
      | none => exact h
    · rw [if_neg h2]; exact h

theorem get_category_table_values_nonempty (commits : List CommitRec) (sub : List Char) :
    ∀ p ∈ get_category_table commits sub, p.2 ≠ [] := by
  unfold get_category_table
  suffices hgen : ∀ (cs : List CommitRec) (tb : Table), (∀ p ∈ tb, p.2 ≠ []) →
      ∀ p ∈ cs.foldl (fun table c => classifyStep sub table c.title) tb, p.2 ≠ [] by
    exact hgen commits [] (by simp)
  intro cs
  induction cs with
  | nil => intro tb htb; simpa using htb
  | cons c rest ih =>
    intro tb htb
    rw [List.foldl_cons]
    exact ih _ (classifyStep_values_nonempty htb)

theorem tableGet_values {tb : Table} (hinv : ∀ p ∈ tb, p.2 ≠ []) {k : List Char}
    {vs : List (List Char)} (h : tableGet tb k = some vs) : vs ≠ [] := by
  induction tb with
  | nil => cases h
  | cons q rest ih =>
    obtain ⟨k', vs'⟩ := q
    rw [tableGet] at h
    by_cases hk : k' = k
    · rw [if_pos hk] at h
      rw [← Option.some.inj h]
      exact hinv (k', vs') (List.mem_cons_self _ _)
    · rw [if_neg hk] at h
      exact ih (fun p hp => hinv p (List.mem_cons_of_mem _ hp)) h

/-- C9: every key present in the classifier's table maps to a list holding at
least one description — no key is ever associated with an empty list — so key
presence coincides with the spec's notion of a non-empty entry. -/
theorem category_table_key_nonempty (commits : List CommitRec) (submodule k : List Char)
    (vs : List (List Char))
    (h : tableGet (get_category_table commits submodule) k = some vs) : vs ≠ [] :=
  tableGet_values (get_category_table_values_nonempty commits submodule) h

/-- C9 witness: the invariant applied to a one-commit table with key `fix`. -/
theorem category_table_key_nonempty_witness :
    tableGet (get_category_table [⟨"fix: a".data, "c"⟩] []) ("fix".data) = some ["a".data] ∧
    (["a".data] : List (List Char)) ≠ [] :=
  ⟨by decide,
    category_table_key_nonempty [⟨"fix: a".data, "c"⟩] [] ("fix".data) ["a".data] (by decide)⟩

/-- C5: the bump type applied in the header is `"minor"` exactly when the
category table built from the commits (under the submodule filter) has a
non-empty `"feat"` entry, and `"patch"` exactly otherwise. -/
theorem header_bump_type_spec (commits : List CommitRec) (submodule : List Char) :
    (headerBumpType commits submodule = "minor" ↔
      ∃ vs, tableGet (get_category_table commits submodule) ("feat".data) = some vs ∧
        vs ≠ []) ∧
    (headerBumpType commits submodule = "patch" ↔
      ¬ ∃ vs, tableGet (get_category_table commits submodule) ("feat".data) = some vs ∧
        vs ≠ []) := by
  cases hget : tableGet (get_category_table commits submodule) ("feat".data) with
  | none =>
    constructor
    · simp [headerBumpType, hget]
    · simp [headerBumpType, hget]
  | some vs =>
    have hne : vs ≠ [] :=
      tableGet_values (get_category_table_values_nonempty commits submodule) hget
    constructor
    · simp [headerBumpType, hget, hne]
    · simp [headerBumpType, hget, hne]

/-- C5 witness: a commit list with a `feat` commit yields bump type `minor`. -/
theorem header_bump_type_spec_witness :
    headerBumpType [⟨"feat: a".data, "c"⟩] [] = "minor" :=
  (header_bump_type_spec [⟨"feat: a".data, "c"⟩] []).1.mpr
    ⟨["a".data], by decide, by decide⟩

/-! ## C7: Release-prefixed commits contribute nothing -/

/-- C7: a commit whose title starts with the literal prefix `Release`
contributes nothing to the output: inserting it anywhere in the commit list
changes neither the category table nor the rendered commit-list string. -/
theorem release_commit_contributes_nothing
    (pre post : List CommitRec) (c : CommitRec) (submodule repoUrl : List Char)
    (h : isReleaseTitle c.title = true) :
    get_category_table (pre ++ c :: post) submodule =
      get_category_table (pre ++ post) submodule ∧
    get_commits (pre ++ c :: post) submodule repoUrl =
      get_commits (pre ++ post) submodule repoUrl := by
  constructor
  · unfold get_category_table
    have hstep : ∀ acc : Table, classifyStep submodule acc c.title = acc := by
      intro acc
      simp [classifyStep, h]
    rw [List.foldl_append, List.foldl_append, List.foldl_cons, hstep]
  · unfold get_commits
    have hstep : ∀ acc : List Char, commitLineStep submodule repoUrl acc c = acc := by
      intro acc
      simp [commitLineStep, h]
    rw [List.foldl_append, List.foldl_append, List.foldl_cons, hstep]

/-- C7 witness: appending `Release 1.2.3` after a `feat` commit leaves the
category table and the rendered commit list unchanged. -/
theorem release_commit_contributes_nothing_witness :
    get_category_table [⟨"feat: x".data, "a"⟩, ⟨"Release 1.2.3".data, "r"⟩] [] =
      get_category_table [⟨"feat: x".data, "a"⟩] [] ∧
    get_commits [⟨"feat: x".data, "a"⟩, ⟨"Release 1.2.3".data, "r"⟩] [] ("u".data) =
      get_commits [⟨"feat: x".data, "a"⟩] [] ("u".data) :=
  release_commit_contributes_nothing [⟨"feat: x".data, "a"⟩] [] ⟨"Release 1.2.3".data, "r"⟩
    [] ("u".data) (by decide)

/-! ## C8: unknown bump types -/

/-- C8: bumping with any type outside major/minor/patch/snapshot leaves every
field of the version unchanged and signals no error. -/
theorem bump_unknown_noop (v : Version) (t : String)
    (h1 : t ≠ "major") (h2 : t ≠ "minor") (h3 : t ≠ "patch") (h4 : t ≠ "snapshot") :
    Version.bump v t = v := by
  simp [Version.bump, h1, h2, h3, h4]

/-- C8 witness: bumping with `"unknown-type"` returns the version unchanged. -/
theorem bump_unknown_noop_witness :
    Version.bump ⟨1, 2, 3, "-x", true⟩ "unknown-type" = ⟨1, 2, 3, "-x", true⟩ :=
  bump_unknown_noop _ _ (by decide) (by decide) (by decide) (by decide)

/-! ## C10: empty-range skeleton -/

/-- C10: with no commits, each section keeps its fixed framing: the commit list
is exactly its heading followed by blank lines with no bullets, and the
categorized changes are exactly the `---` separator with no subheadings. -/
theorem empty_range_skeleton (submodule repoUrl : List Char) :
    get_commits [] submodule repoUrl = "### Commits since last release:\n\n\n\n".data ∧
    get_categorized_changes [] submodule = "---\n".data :=
  ⟨rfl, rfl⟩

/-! ## `GITHUB_URL_REGEX`: match characterization -/

theorem githubCaps_of_form {l host path : List Char} (h : SshUrlForm l host path) :
    githubCaps l = some (host, path) := by
  obtain ⟨rfl, hhost, hpath⟩ := h
  have hpre : ("git@".data).isPrefixOf
      ("git@".data ++ host ++ ':' :: (path ++ ".git".data)) = true := by
    rw [List.isPrefixOf_iff_prefix, List.append_assoc]
    exact List.prefix_append _ _
  have hdrop4 : ("git@".data ++ host ++ ':' :: (path ++ ".git".data)).drop 4 =
      host ++ ':' :: (path ++ ".git".data) := by
    have h4 : ("git@".data).length = 4 := rfl
    rw [List.append_assoc, ← h4, List.drop_left]
  have thost := takeWhile_dropWhile_append (p := isHostChar)
    (b := ':' :: (path ++ ".git".data)) hhost
    (fun ch hch => by simp at hch; rw [← hch]; decide)
  have tpath := takeWhile_dropWhile_append (p := isPathChar) (b := ".git".data) hpath
    (fun ch hch => by simp at hch; rw [← hch]; decide)
  simp only [githubCaps, hpre, if_true, hdrop4, thost.1, thost.2, tpath.1, tpath.2]

theorem form_of_githubCaps {l host path : List Char}
    (h : githubCaps l = some (host, path)) : SshUrlForm l host path := by
  simp only [githubCaps] at h
  split at h
  case isFalse => exact absurd h (by simp)
  next hpre =>
  rw [List.isPrefixOf_iff_prefix] at hpre
  obtain ⟨rest, hrest⟩ := hpre
  have hdrop4 : l.drop 4 = rest := by
    rw [← hrest]
    have h4 : ("git@".data).length = 4 := rfl
    rw [← h4, List.drop_left]
  rw [hdrop4] at h
  split at h
  · exact absurd h (by simp)
  next c1 r3 hr3 =>
  split at h
  case isFalse => exact absurd h (by simp)
  next hc1 =>
  split at h
  case isFalse => exact absurd h (by simp)
  next hgit =>
  subst hc1
  have h' : rest.takeWhile isHostChar = host ∧ r3.takeWhile isPathChar = path := by
    simpa using h
  have hrestsplit : rest = rest.takeWhile isHostChar ++ ':' :: r3 := by
    conv_lhs => rw [← List.takeWhile_append_dropWhile isHostChar rest]
    rw [hr3]
  have hr3split : r3 = r3.takeWhile isPathChar ++ ".git".data := by
    conv_lhs => rw [← List.takeWhile_append_dropWhile isPathChar r3]
    rw [hgit]
  refine ⟨?_, ?_, ?_⟩
  · rw [← hrest, hrestsplit, hr3split, h'.1, h'.2]
    simp [List.append_assoc]
  · intro ch hch
    rw [← h'.1] at hch
    exact List.mem_takeWhile_imp hch
  · intro ch hch
    rw [← h'.2] at hch
    exact List.mem_takeWhile_imp hch

/-- C6: a URL starting with `https://` is returned unmodified; a URL of the
SSH form `git@host:path.git` (per the regex's character classes) is rewritten
to `https://host/path`; any other URL makes the function abort the process,
returning no value. -/
theorem origin_url_normalization (url : String) :
    (("https://".data).isPrefixOf url.data = true →
      find_origin_remote_url url = .ok url) ∧
    (("https://".data).isPrefixOf url.data = false →
      (∀ host path : List Char, SshUrlForm url.data host path →
        find_origin_remote_url url = .ok ⟨"https://".data ++ host ++ '/' :: path⟩) ∧
      ((¬ ∃ host path : List Char, SshUrlForm url.data host path) →
        find_origin_remote_url url = .panic)) := by
  constructor
  · intro hp
    simp [find_origin_remote_url, hp]
  · intro hp
    constructor
    · intro host path hform
      simp [find_origin_remote_url, hp, githubCaps_of_form hform]
    · intro hne
      cases hcap : githubCaps url.data with
      | none => simp [find_origin_remote_url, hp, hcap]
      | some x =>
        obtain ⟨host, path⟩ := x
        exact absurd ⟨host, path, form_of_githubCaps hcap⟩ hne

/-- C6 witness: `git@github.com:owner/repo.git` normalizes to
`https://github.com/owner/repo`. -/
theorem origin_url_normalization_witness :
    find_origin_remote_url "git@github.com:owner/repo.git" =
      .ok "https://github.com/owner/repo" := by
  have h := ((origin_url_normalization "git@github.com:owner/repo.git").2 (by decide)).1
    ("github.com".data) ("owner/repo".data) ⟨by decide, by decide, by decide⟩
  rw [h]
  decide

end Gitrelease
